import Mathlib

/-!
Verification of the Lightweight Matrix Library (LML) core against its
specification.  The repository ships only the public header
`src/include/lml.h` (declarations); the function bodies are not part of the
source tree, so every operation below is modelled from the specification's
words, over exact rational arithmetic in place of IEEE doubles (hence the
spec's "within floating-point tolerance" becomes exact equality).
-/

namespace LML

/-- Modelled from the spec: the error taxonomy of §7 (the implementation file
with the concrete error reporting is missing from the source tree). -/
inductive Err : Type where
  | DimensionMismatchError : Err
  | IndexError : Err
  | RangeError : Err
  | SingularMatrixError : Err
deriving DecidableEq

/-- Modelled from the spec: the `Matrix` data model of §3 — explicit row and
column counts together with a rectangular grid of values, addressed by
zero-based (row, column) pairs.  Exact rationals stand in for doubles. -/
structure Mat : Type where
  rows : ℕ
  cols : ℕ
  data : Matrix (Fin rows) (Fin cols) ℚ

instance : DecidableEq Mat := fun a b => by
  rcases a with ⟨r1, c1, d1⟩
  rcases b with ⟨r2, c2, d2⟩
  rcases Nat.decEq r1 r2 with h1 | h1
  · exact isFalse (by simp [Mat.mk.injEq]; intro h; exact absurd h h1)
  · subst h1
    rcases Nat.decEq c1 c2 with h2 | h2
    · exact isFalse (by simp [Mat.mk.injEq]; intro h; exact absurd h h2)
    · subst h2
      rcases inferInstanceAs (Decidable (d1 = d2)) with h3 | h3
      · exact isFalse (by simp [Mat.mk.injEq]; exact h3)
      · exact isTrue (by rw [h3])

instance {ε α : Type} [DecidableEq ε] [DecidableEq α] : DecidableEq (Except ε α) :=
  fun a b =>
  match a, b with
  | .ok x, .ok y => decidable_of_iff (x = y) (by simp)
  | .error x, .error y => decidable_of_iff (x = y) (by simp)
  | .ok _, .error _ => isFalse fun h => Except.noConfusion h
  | .error _, .ok _ => isFalse fun h => Except.noConfusion h

/-- View a square `Mat` as a Mathlib square matrix over its row count. -/
def Mat.sq (mat : Mat) (h : mat.rows = mat.cols) :
    Matrix (Fin mat.rows) (Fin mat.rows) ℚ :=
  mat.data.submatrix id (Fin.cast h)

/-- The list of entries of row `i` (used to state dot products). -/
def Mat.rowList (mat : Mat) (i : Fin mat.rows) : List ℚ :=
  (List.finRange mat.cols).map fun j => mat.data i j

/-- The list of entries of column `j` (used to state dot products). -/
def Mat.colList (mat : Mat) (j : Fin mat.cols) : List ℚ :=
  (List.finRange mat.rows).map fun i => mat.data i j

/-- Dot product of two lists of rationals (pairs beyond the shorter length
contribute nothing). -/
def dotp (xs ys : List ℚ) : ℚ := (List.zipWith (fun x y => x * y) xs ys).sum

/-- Modelled from the spec: `identity(size)` of §1/§6, the identity matrix
constructor consumed by the core (implementation file missing). -/
def identity (n : ℕ) : Mat := ⟨n, n, 1⟩

/-- Modelled from the spec: `get_lower(mat)` of §4.1 (implementation file
missing) — same dimensions as the input; keeps entries on or below the main
diagonal bounded by `min rows cols`, every other position zero. -/
def get_lower (mat : Mat) : Mat :=
  ⟨mat.rows, mat.cols, Matrix.of fun i j =>
    if j.1 ≤ i.1 ∧ i.1 < min mat.rows mat.cols then mat.data i j else 0⟩

/-- Modelled from the spec: `get_upper(mat)` of §4.1 (implementation file
missing) — same dimensions as the input; keeps entries on or above the main
diagonal bounded by `min rows cols`, every other position zero. -/
def get_upper (mat : Mat) : Mat :=
  ⟨mat.rows, mat.cols, Matrix.of fun i j =>
    if i.1 ≤ j.1 ∧ j.1 < min mat.rows mat.cols then mat.data i j else 0⟩

/-- Modelled from the spec: `get_submatrix(mat, row, col, nrows, ncols)` of
§4.1 (implementation file missing).  The start indices are integers (C `int`),
the window sizes are the dimensions of the produced matrix; it fails with
`RangeError` exactly when the window exceeds the bounds or a start index is
negative. -/
def get_submatrix (mat : Mat) (row col : ℤ) (nrows ncols : ℕ) :
    Except Err Mat :=
  if h : (row + nrows > (mat.rows : ℤ)) ∨ (col + ncols > (mat.cols : ℤ)) ∨
      row < 0 ∨ col < 0 then
    .error .RangeError
  else
    .ok ⟨nrows, ncols, Matrix.of fun i j =>
      mat.data ⟨row.toNat + i.1, by push_neg at h; omega⟩
               ⟨col.toNat + j.1, by push_neg at h; omega⟩⟩

/-- Modelled from the spec: `multiply(mat1, mat2)` of §4.2 (implementation
file missing), honouring the documented contract `a.cols == b.cols`; each
output cell is the dot product of the corresponding row of `a` and column of
`b`. -/
def multiply (a b : Mat) : Except Err Mat :=
  if a.cols = b.cols then
    .ok ⟨a.rows, b.cols, Matrix.of fun i j => dotp (a.rowList i) (b.colList j)⟩
  else .error .DimensionMismatchError

/-- Modelled from the spec: `map(mat, function)` of §1/§6 (implementation file
missing) — applies `f` to every element in place; the in-place update of the
receiver is modelled as a state transformer returning the updated matrix. -/
def map (mat : Mat) (f : ℚ → ℚ) : Mat :=
  ⟨mat.rows, mat.cols, Matrix.of fun i j => f (mat.data i j)⟩

/-- Index of the first maximum-magnitude entry of a column segment, the
partial-pivoting choice recommended by spec §4.3/§9. -/
def argmaxAbs (n : ℕ) (v : Fin (n + 1) → ℚ) : Fin (n + 1) :=
  (List.finRange (n + 1)).foldl (fun best i => if |v best| < |v i| then i else best) 0

/-- Extension of a permutation of `Fin n` to `Fin (n + 1)` fixing `0`. -/
def extendPerm (n : ℕ) (e : Equiv.Perm (Fin n)) : Equiv.Perm (Fin (n + 1)) where
  toFun := Fin.cases 0 fun i => (e i).succ
  invFun := Fin.cases 0 fun i => (e.symm i).succ
  left_inv := by
    intro i
    cases i using Fin.cases with
    | zero => simp
    | succ i => simp
  right_inv := by
    intro i
    cases i using Fin.cases with
    | zero => simp
    | succ i => simp

/-- The input with the partial-pivoting row swap of the first elimination step
applied. -/
def swapA (n : ℕ) (A : Matrix (Fin (n + 1)) (Fin (n + 1)) ℚ) :
    Matrix (Fin (n + 1)) (Fin (n + 1)) ℚ :=
  A.submatrix (Equiv.swap 0 (argmaxAbs n fun i => A i 0)) id

/-- One Gaussian-elimination step on the pivoted matrix: the Schur complement
of the (0,0) pivot. -/
def schur (n : ℕ) (B : Matrix (Fin (n + 1)) (Fin (n + 1)) ℚ) :
    Matrix (Fin n) (Fin n) ℚ :=
  Matrix.of fun i j => B i.succ j.succ - B i.succ 0 / B 0 0 * B 0 j.succ

/-- Assemble the unit-lower-triangular factor from the multiplier column of the
pivoted matrix `B` and the factor of the Schur complement, with the multiplier
column permuted by the recursively produced permutation. -/
def buildL (n : ℕ) (B : Matrix (Fin (n + 1)) (Fin (n + 1)) ℚ)
    (e : Equiv.Perm (Fin n)) (L1 : Matrix (Fin n) (Fin n) ℚ) :
    Matrix (Fin (n + 1)) (Fin (n + 1)) ℚ :=
  Matrix.of (Fin.cons (Fin.cons 1 fun _ => 0)
    fun i => Fin.cons (B (e i).succ 0 / B 0 0) (L1 i))

/-- Assemble the upper-triangular factor from the pivot row of the pivoted
matrix `B` and the factor of the Schur complement. -/
def buildU (n : ℕ) (B : Matrix (Fin (n + 1)) (Fin (n + 1)) ℚ)
    (U1 : Matrix (Fin n) (Fin n) ℚ) :
    Matrix (Fin (n + 1)) (Fin (n + 1)) ℚ :=
  Matrix.of (Fin.cons (Fin.cons (B 0 0) fun j => B 0 j.succ)
    fun i => Fin.cons 0 (U1 i))

/-- Modelled from the spec: the Gaussian-elimination core of `LU_decompose`
(§4.3, implementation file missing), with partial pivoting on the current
column's maximum-magnitude entry (the recommended default of §9) and an
internally tracked row permutation and swap count; it fails with
`SingularMatrixError` when a pivot column is entirely zero. -/
def LU_core : (n : ℕ) → Matrix (Fin n) (Fin n) ℚ →
    Except Err (Equiv.Perm (Fin n) × ℕ ×
      Matrix (Fin n) (Fin n) ℚ × Matrix (Fin n) (Fin n) ℚ)
  | 0, _ => .ok (Equiv.refl _, 0, 1, 1)
  | n + 1, A =>
    if A (argmaxAbs n fun i => A i 0) 0 = 0 then .error .SingularMatrixError
    else
      match LU_core n (schur n (swapA n A)) with
      | .error e => .error e
      | .ok (e, s, L1, U1) =>
        .ok (Equiv.swap 0 (argmaxAbs n fun i => A i 0) * extendPerm n e,
             s + (if argmaxAbs n (fun i => A i 0) = 0 then 0 else 1),
             buildL n (swapA n A) e L1, buildU n (swapA n A) U1)

/-- Incremental triangular solve: the first `k` components of the solution of a
lower-triangular system `M x = c`. -/
def lsAux (n : ℕ) (M : Matrix (Fin n) (Fin n) ℚ) (c : Fin n → ℚ) :
    (k : ℕ) → k ≤ n → (Fin k → ℚ)
  | 0, _ => Fin.elim0
  | k + 1, h =>
    Fin.snoc (lsAux n M c k (Nat.le_of_succ_le h))
      ((c ⟨k, h⟩ - ∑ j : Fin k,
          M ⟨k, h⟩ ⟨j.1, lt_trans j.2 h⟩ * lsAux n M c k (Nat.le_of_succ_le h) j) /
        M ⟨k, h⟩ ⟨k, h⟩)

/-- Solution of a lower-triangular system by sequential substitution. -/
def triSolveLow (n : ℕ) (M : Matrix (Fin n) (Fin n) ℚ) (c : Fin n → ℚ) :
    Fin n → ℚ :=
  fun i => lsAux n M c n le_rfl i

/-- Modelled from the spec: forward substitution solving `L y = c` (§4.5,
implementation file missing). -/
def forwardSub (n : ℕ) (L : Matrix (Fin n) (Fin n) ℚ) (c : Fin n → ℚ) :
    Fin n → ℚ :=
  triSolveLow n L c

/-- Modelled from the spec: back substitution solving `U x = c` (§4.5,
implementation file missing), realised as the forward solve of the
index-reversed system. -/
def backSub (n : ℕ) (U : Matrix (Fin n) (Fin n) ℚ) (c : Fin n → ℚ) :
    Fin n → ℚ :=
  fun i => triSolveLow n (Matrix.of fun r s => U r.rev s.rev) (fun r => c r.rev) i.rev

/-- Modelled from the spec: `LU_decompose(mat, &L, &U)` of §4.3 (implementation
file missing) — square input only, `DimensionMismatchError` otherwise; returns
the unit-lower-triangular and upper-triangular factors as new matrices, the
pivot permutation being tracked internally and not exposed (§9). -/
def LU_decompose (mat : Mat) : Except Err (Mat × Mat) :=
  if h : mat.rows = mat.cols then
    match LU_core mat.rows (mat.sq h) with
    | .error e => .error e
    | .ok (_, _, L, U) => .ok (⟨mat.rows, mat.rows, L⟩, ⟨mat.rows, mat.rows, U⟩)
  else .error .DimensionMismatchError

/-- Modelled from the spec: `det(mat)` of §4.4 (implementation file missing) —
square input only; a 1×1 matrix returns its sole element directly without
invoking the decomposition; a detected singularity yields `0.0`; otherwise the
product of `U`'s diagonal adjusted by the swap-count sign. -/
def det (mat : Mat) : Except Err ℚ :=
  if h : mat.rows = mat.cols then
    if h1 : mat.rows = 1 then .ok (mat.data ⟨0, by omega⟩ ⟨0, by omega⟩)
    else
      match LU_core mat.rows (mat.sq h) with
      | .error _ => .ok 0
      | .ok (_, s, _, U) => .ok ((-1) ^ s * ∏ i, U i i)
  else .error .DimensionMismatchError

/-- Modelled from the spec: `solve(mat1, mat2)` of §4.5 (implementation file
missing) — requires square `A` and a right-hand side with matching row count
(multi-column right-hand sides supported); LU-decomposes `A`, applies the
tracked pivot permutation to `b`, then forward- and back-substitutes. -/
def solve (A b : Mat) : Except Err Mat :=
  if h : A.rows = A.cols ∧ b.rows = A.rows then
    match LU_core A.rows (A.sq h.1) with
    | .error e => .error e
    | .ok (σ, _, L, U) =>
      .ok ⟨A.rows, b.cols, Matrix.of fun i j =>
        backSub A.rows U
          (forwardSub A.rows L fun i3 => b.data (Fin.cast h.2.symm (σ i3)) j) i⟩
  else .error .DimensionMismatchError

/-- Modelled from the spec: `inverse(mat)` of §4.6 (implementation file
missing) — computed by solving `A × X = I` against the identity right-hand
side in one multi-column solve. -/
def inverse (mat : Mat) : Except Err Mat :=
  solve mat (identity mat.rows)

/-- The spec §8 scenario matrix `[[4,3],[6,3]]`. -/
def m22 : Mat :=
  ⟨2, 2, Matrix.of fun i j => (![![4, 3], ![6, 3]] : Fin 2 → Fin 2 → ℚ) i j⟩

/-- The spec §8 singular matrix `[[1,2],[2,4]]`. -/
def sing22 : Mat :=
  ⟨2, 2, Matrix.of fun i j => (![![1, 2], ![2, 4]] : Fin 2 → Fin 2 → ℚ) i j⟩

/-- The spec §8 right-hand side `[[1],[1]]`. -/
def b21 : Mat := ⟨2, 1, Matrix.of fun i _ => (![1, 1] : Fin 2 → ℚ) i⟩

/-- The lower factor of the spec §8 scenario. -/
def L22 : Matrix (Fin 2) (Fin 2) ℚ :=
  Matrix.of fun i j => (![![1, 0], ![2 / 3, 1]] : Fin 2 → Fin 2 → ℚ) i j

/-- The upper factor of the spec §8 scenario. -/
def U22 : Matrix (Fin 2) (Fin 2) ℚ :=
  Matrix.of fun i j => (![![6, 3], ![0, 1]] : Fin 2 → Fin 2 → ℚ) i j

/-- The spec §8 solution `[[0],[1/3]]`. -/
def x21 : Mat := ⟨2, 1, Matrix.of fun i _ => (![0, 1 / 3] : Fin 2 → ℚ) i⟩

/-- A 2×3 matrix with entry `10 i + j`, for submatrix and shape tests. -/
def mat23 : Mat := ⟨2, 3, Matrix.of fun i j => ((i.1 * 10 + j.1 : ℕ) : ℚ)⟩

theorem abs_le_foldl_max (m : ℕ) (v : Fin m → ℚ) (l : List (Fin m)) (b : Fin m) :
    |v b| ≤ |v (l.foldl (fun best i => if |v best| < |v i| then i else best) b)| ∧
    ∀ i ∈ l, |v i| ≤ |v (l.foldl (fun best i => if |v best| < |v i| then i else best) b)| := by
  induction l generalizing b with
  | nil => exact ⟨le_refl _, by simp⟩
  | cons a l ih =>
    have step1 : |v b| ≤ |v (if |v b| < |v a| then a else b)| := by
      by_cases h : |v b| < |v a|
      · simpa [h] using le_of_lt h
      · simp [h]
    have step2 : |v a| ≤ |v (if |v b| < |v a| then a else b)| := by
      by_cases h : |v b| < |v a|
      · simp [h]
      · simpa [h] using le_of_not_lt h
    refine ⟨?_, ?_⟩
    · simpa [List.foldl_cons] using le_trans step1 (ih (if |v b| < |v a| then a else b)).1
    · intro i hi
      rcases List.mem_cons.mp hi with rfl | hi
      · simpa [List.foldl_cons] using le_trans step2 (ih (if |v b| < |v i| then i else b)).1
      · simpa [List.foldl_cons] using (ih (if |v b| < |v a| then a else b)).2 i hi

theorem argmaxAbs_le (n : ℕ) (v : Fin (n + 1) → ℚ) (i : Fin (n + 1)) :
    |v i| ≤ |v (argmaxAbs n v)| :=
  (abs_le_foldl_max (n + 1) v (List.finRange (n + 1)) 0).2 i (List.mem_finRange i)

theorem argmaxAbs_eq_zero (n : ℕ) (v : Fin (n + 1) → ℚ)
    (h : v (argmaxAbs n v) = 0) (i : Fin (n + 1)) : v i = 0 := by
  have hle := argmaxAbs_le n v i
  rw [h] at hle
  exact abs_nonpos_iff.mp (by simpa using hle)

theorem extendPerm_zero (n : ℕ) (e : Equiv.Perm (Fin n)) : extendPerm n e 0 = 0 := by
  simp [extendPerm]

theorem extendPerm_succ (n : ℕ) (e : Equiv.Perm (Fin n)) (i : Fin n) :
    extendPerm n e i.succ = (e i).succ := by
  simp [extendPerm]

theorem extendPerm_eq (n : ℕ) (e : Equiv.Perm (Fin n)) :
    extendPerm n e = Equiv.Perm.decomposeFin.symm (0, e) := by
  apply Equiv.ext
  intro i
  cases i using Fin.cases with
  | zero => simp [extendPerm_zero, Equiv.Perm.decomposeFin_symm_apply_zero]
  | succ i => simp [extendPerm_succ, Equiv.Perm.decomposeFin_symm_apply_succ]

theorem sign_extendPerm (n : ℕ) (e : Equiv.Perm (Fin n)) :
    Equiv.Perm.sign (extendPerm n e) = Equiv.Perm.sign e := by
  rw [extendPerm_eq, Equiv.Perm.decomposeFin.symm_sign]
  simp

theorem swapA_apply (n : ℕ) (A : Matrix (Fin (n + 1)) (Fin (n + 1)) ℚ)
    (i j : Fin (n + 1)) :
    swapA n A i j = A (Equiv.swap 0 (argmaxAbs n fun k => A k 0) i) j := by
  simp [swapA]

theorem schur_apply (n : ℕ) (B : Matrix (Fin (n + 1)) (Fin (n + 1)) ℚ)
    (i j : Fin n) :
    schur n B i j = B i.succ j.succ - B i.succ 0 / B 0 0 * B 0 j.succ := by
  simp [schur]

theorem buildL_zz (n : ℕ) (B : Matrix (Fin (n + 1)) (Fin (n + 1)) ℚ)
    (e : Equiv.Perm (Fin n)) (L1 : Matrix (Fin n) (Fin n) ℚ) :
    buildL n B e L1 0 0 = 1 := by
  simp [buildL]

theorem buildL_zs (n : ℕ) (B : Matrix (Fin (n + 1)) (Fin (n + 1)) ℚ)
    (e : Equiv.Perm (Fin n)) (L1 : Matrix (Fin n) (Fin n) ℚ) (j : Fin n) :
    buildL n B e L1 0 j.succ = 0 := by
  simp [buildL]

theorem buildL_sz (n : ℕ) (B : Matrix (Fin (n + 1)) (Fin (n + 1)) ℚ)
    (e : Equiv.Perm (Fin n)) (L1 : Matrix (Fin n) (Fin n) ℚ) (i : Fin n) :
    buildL n B e L1 i.succ 0 = B (e i).succ 0 / B 0 0 := by
  simp [buildL]

theorem buildL_ss (n : ℕ) (B : Matrix (Fin (n + 1)) (Fin (n + 1)) ℚ)
    (e : Equiv.Perm (Fin n)) (L1 : Matrix (Fin n) (Fin n) ℚ) (i j : Fin n) :
    buildL n B e L1 i.succ j.succ = L1 i j := by
  simp [buildL]

theorem buildU_zz (n : ℕ) (B : Matrix (Fin (n + 1)) (Fin (n + 1)) ℚ)
    (U1 : Matrix (Fin n) (Fin n) ℚ) :
    buildU n B U1 0 0 = B 0 0 := by
  simp [buildU]

theorem buildU_zs (n : ℕ) (B : Matrix (Fin (n + 1)) (Fin (n + 1)) ℚ)
    (U1 : Matrix (Fin n) (Fin n) ℚ) (j : Fin n) :
    buildU n B U1 0 j.succ = B 0 j.succ := by
  simp [buildU]

theorem buildU_sz (n : ℕ) (B : Matrix (Fin (n + 1)) (Fin (n + 1)) ℚ)
    (U1 : Matrix (Fin n) (Fin n) ℚ) (i : Fin n) :
    buildU n B U1 i.succ 0 = 0 := by
  simp [buildU]

theorem buildU_ss (n : ℕ) (B : Matrix (Fin (n + 1)) (Fin (n + 1)) ℚ)
    (U1 : Matrix (Fin n) (Fin n) ℚ) (i j : Fin n) :
    buildU n B U1 i.succ j.succ = U1 i j := by
  simp [buildU]

theorem buildU_z (n : ℕ) (B : Matrix (Fin (n + 1)) (Fin (n + 1)) ℚ)
    (U1 : Matrix (Fin n) (Fin n) ℚ) (j : Fin (n + 1)) :
    buildU n B U1 0 j = B 0 j := by
  cases j using Fin.cases with
  | zero => exact buildU_zz n B U1
  | succ j => exact buildU_zs n B U1 j

theorem LU_core_ok (n : ℕ) (A : Matrix (Fin n) (Fin n) ℚ)
    (σ : Equiv.Perm (Fin n)) (s : ℕ) (L U : Matrix (Fin n) (Fin n) ℚ)
    (h : LU_core n A = .ok (σ, s, L, U)) :
    (∀ i, L i i = 1) ∧ (∀ i j, i < j → L i j = 0) ∧
    (∀ i j, j < i → U i j = 0) ∧ (∀ i, U i i ≠ 0) ∧
    A.submatrix σ id = L * U ∧ Equiv.Perm.sign σ = (-1 : ℤˣ) ^ s := by
  induction n generalizing s with
  | zero =>
    simp only [LU_core, Except.ok.injEq, Prod.mk.injEq] at h
    obtain ⟨h1, h2, h3, h4⟩ := h
    subst h1
    subst h2
    subst h3
    subst h4
    refine ⟨fun i => i.elim0, fun i => i.elim0, fun i => i.elim0, fun i => i.elim0,
      ?_, by simp⟩
    funext i
    exact i.elim0
  | succ n ih =>
    simp only [LU_core] at h
    split at h
    · exact absurd h (by simp)
    split at h
    · exact absurd h (by simp)
    rename_i hz hok e s1 L1 U1 heq
    simp only [Except.ok.injEq, Prod.mk.injEq] at h
    obtain ⟨hσ, hs, hL, hU⟩ := h
    subst hσ
    subst hs
    subst hL
    subst hU
    obtain ⟨ihd, ihl, ihu, ihnz, ihm, ihs⟩ := ih (schur n (swapA n A)) e s1 L1 U1 heq
    have hp : swapA n A 0 0 ≠ 0 := by
      rw [swapA_apply, Equiv.swap_apply_left]
      exact hz
    refine ⟨?_, ?_, ?_, ?_, ?_, ?_⟩
    · intro i
      cases i using Fin.cases with
      | zero => exact buildL_zz n (swapA n A) e L1
      | succ i =>
        rw [buildL_ss]
        exact ihd i
    · intro i j hij
      cases i using Fin.cases with
      | zero =>
        cases j using Fin.cases with
        | zero => exact absurd hij (lt_irrefl _)
        | succ j => exact buildL_zs n (swapA n A) e L1 j
      | succ i =>
        cases j using Fin.cases with
        | zero => exact absurd hij (Fin.not_lt_zero _)
        | succ j =>
          rw [buildL_ss]
          exact ihl i j (by exact Fin.succ_lt_succ_iff.mp hij)
    · intro i j hji
      cases i using Fin.cases with
      | zero => exact absurd hji (Fin.not_lt_zero _)
      | succ i =>
        cases j using Fin.cases with
        | zero => exact buildU_sz n (swapA n A) U1 i
        | succ j =>
          rw [buildU_ss]
          exact ihu i j (by exact Fin.succ_lt_succ_iff.mp hji)
    · intro i
      cases i using Fin.cases with
      | zero =>
        rw [buildU_zz]
        exact hp
      | succ i =>
        rw [buildU_ss]
        exact ihnz i
    · ext i j
      rw [Matrix.submatrix_apply, Matrix.mul_apply, Fin.sum_univ_succ, id_eq]
      cases i using Fin.cases with
      | zero =>
        have hσ0 : (Equiv.swap 0 (argmaxAbs n fun i => A i 0) * extendPerm n e) 0 =
            argmaxAbs n fun i => A i 0 := by
          rw [Equiv.Perm.mul_apply, extendPerm_zero, Equiv.swap_apply_left]
        rw [hσ0, buildL_zz, buildU_z, one_mul]
        have hz2 : ∀ k : Fin n,
            buildL n (swapA n A) e L1 0 k.succ * buildU n (swapA n A) U1 k.succ j = 0 := by
          intro k
          rw [buildL_zs, zero_mul]
        rw [Finset.sum_congr rfl fun k _ => hz2 k, Finset.sum_const_zero, add_zero,
          swapA_apply, Equiv.swap_apply_left]
      | succ i =>
        have hσi : (Equiv.swap 0 (argmaxAbs n fun i => A i 0) * extendPerm n e) i.succ =
            Equiv.swap 0 (argmaxAbs n fun i => A i 0) ((e i).succ) := by
          rw [Equiv.Perm.mul_apply, extendPerm_succ]
        rw [hσi, buildL_sz, buildU_z]
        have hA : A (Equiv.swap 0 (argmaxAbs n fun i => A i 0) ((e i).succ)) j =
            swapA n A ((e i).succ) j := (swapA_apply n A ((e i).succ) j).symm
        rw [hA]
        cases j using Fin.cases with
        | zero =>
          have hz3 : ∀ k : Fin n,
              buildL n (swapA n A) e L1 i.succ k.succ *
                buildU n (swapA n A) U1 k.succ 0 = 0 := by
            intro k
            rw [buildU_sz, mul_zero]
          rw [Finset.sum_congr rfl fun k _ => hz3 k, Finset.sum_const_zero, add_zero,
            div_mul_cancel₀ _ hp]
        | succ j =>
          have hsum : (∑ k : Fin n, buildL n (swapA n A) e L1 i.succ k.succ *
              buildU n (swapA n A) U1 k.succ j.succ) = (L1 * U1) i j := by
            rw [Matrix.mul_apply]
            refine Finset.sum_congr rfl fun k _ => ?_
            rw [buildL_ss, buildU_ss]
          rw [hsum, ← Matrix.ext_iff.mpr ihm i j, Matrix.submatrix_apply, id_eq,
            schur_apply]
          ring
    · have hsgn : Equiv.Perm.sign
          (Equiv.swap 0 (argmaxAbs n fun i => A i 0) * extendPerm n e) =
          Equiv.Perm.sign (Equiv.swap 0 (argmaxAbs n fun i => A i 0)) *
            Equiv.Perm.sign (extendPerm n e) := by
        rw [Equiv.Perm.sign_mul]
      rw [hsgn, sign_extendPerm, ihs]
      by_cases hr : (argmaxAbs n fun i => A i 0) = 0
      · rw [if_pos hr, hr, Equiv.swap_self]
        simp [pow_add]
      · rw [if_neg hr, Equiv.Perm.sign_swap fun hh => hr hh.symm]
        rw [pow_add, pow_one]
        exact mul_comm _ _

theorem elim_factorization (n : ℕ) (B : Matrix (Fin (n + 1)) (Fin (n + 1)) ℚ)
    (hp : B 0 0 ≠ 0) :
    B = buildL n B 1 1 * buildU n B (schur n B) := by
  ext i j
  rw [Matrix.mul_apply, Fin.sum_univ_succ]
  cases i using Fin.cases with
  | zero =>
    rw [buildL_zz, buildU_z, one_mul]
    have hz : ∀ k : Fin n,
        buildL n B 1 1 0 k.succ * buildU n B (schur n B) k.succ j = 0 := fun k => by
      rw [buildL_zs, zero_mul]
    rw [Finset.sum_congr rfl fun k _ => hz k, Finset.sum_const_zero, add_zero]
  | succ i =>
    rw [buildL_sz, buildU_z, Equiv.Perm.one_apply]
    cases j using Fin.cases with
    | zero =>
      have hz : ∀ k : Fin n,
          buildL n B 1 1 i.succ k.succ * buildU n B (schur n B) k.succ 0 = 0 := fun k => by
        rw [buildU_sz, mul_zero]
      rw [Finset.sum_congr rfl fun k _ => hz k, Finset.sum_const_zero, add_zero,
        div_mul_cancel₀ _ hp]
    | succ j =>
      have hsum : (∑ k : Fin n, buildL n B 1 1 i.succ k.succ *
          buildU n B (schur n B) k.succ j.succ) = ((1 : Matrix (Fin n) (Fin n) ℚ) *
            schur n B) i j := by
        rw [Matrix.mul_apply]
        refine Finset.sum_congr rfl fun k _ => ?_
        rw [buildL_ss, buildU_ss]
      rw [hsum, Matrix.one_mul, schur_apply]
      ring

theorem det_buildU (n : ℕ) (B : Matrix (Fin (n + 1)) (Fin (n + 1)) ℚ)
    (U1 : Matrix (Fin n) (Fin n) ℚ) :
    (buildU n B U1).det = B 0 0 * U1.det := by
  rw [Matrix.det_succ_column_zero, Fin.sum_univ_succ]
  have hz : ∀ k : Fin n, ((-1 : ℚ) ^ ((k.succ : Fin (n + 1)) : ℕ) *
      buildU n B U1 k.succ 0 *
      ((buildU n B U1).submatrix k.succ.succAbove Fin.succ).det) = 0 := fun k => by
    rw [buildU_sz, mul_zero, zero_mul]
  rw [Finset.sum_congr rfl fun k _ => hz k, Finset.sum_const_zero, add_zero, buildU_zz]
  have hsub : ((buildU n B U1).submatrix (0 : Fin (n + 1)).succAbove Fin.succ) = U1 := by
    ext i j
    rw [Matrix.submatrix_apply, Fin.zero_succAbove, buildU_ss]
  rw [hsub]
  norm_num

theorem det_swapA (n : ℕ) (A : Matrix (Fin (n + 1)) (Fin (n + 1)) ℚ)
    (h : (swapA n A).det = 0) : A.det = 0 := by
  have hperm := Matrix.det_permute (Equiv.swap 0 (argmaxAbs n fun i => A i 0)) A
  have hsw : (swapA n A).det =
      (A.submatrix (Equiv.swap 0 (argmaxAbs n fun i => A i 0)) id).det := rfl
  rw [hsw, hperm] at h
  rcases Int.units_eq_one_or
      (Equiv.Perm.sign (Equiv.swap 0 (argmaxAbs n fun i => A i 0))) with hs | hs <;>
    rw [hs] at h <;> simpa using h

theorem LU_core_err (n : ℕ) (A : Matrix (Fin n) (Fin n) ℚ) (e0 : Err)
    (h : LU_core n A = .error e0) :
    e0 = .SingularMatrixError ∧ A.det = 0 := by
  induction n generalizing e0 with
  | zero => simp [LU_core] at h
  | succ n ih =>
    simp only [LU_core] at h
    split at h
    · rename_i hz
      refine ⟨by injection h with h1; exact h1.symm, ?_⟩
      exact Matrix.det_eq_zero_of_column_eq_zero 0
        (argmaxAbs_eq_zero n (fun i => A i 0) hz)
    split at h
    · rename_i hz hok e1 heq
      obtain ⟨he, hdet⟩ := ih (schur n (swapA n A)) e1 heq
      refine ⟨by injection h with h1; rw [← h1, he], ?_⟩
      have hp : swapA n A 0 0 ≠ 0 := by
        rw [swapA_apply, Equiv.swap_apply_left]
        exact hz
      have hfac := elim_factorization n (swapA n A) hp
      have hdet2 : (swapA n A).det = 0 := by
        rw [hfac, Matrix.det_mul, det_buildU, hdet, mul_zero, mul_zero]
      exact det_swapA n A hdet2
    · exact absurd h (by simp)

theorem lsAux_castLE (n : ℕ) (M : Matrix (Fin n) (Fin n) ℚ) (c : Fin n → ℚ)
    (k k2 : ℕ) (hkk : k ≤ k2) (h2 : k2 ≤ n) (i : Fin k) :
    lsAux n M c k2 h2 (Fin.castLE hkk i) = lsAux n M c k (le_trans hkk h2) i := by
  induction k2 with
  | zero => exact absurd (lt_of_lt_of_le i.2 hkk) (Nat.not_lt_zero _)
  | succ k2 ih =>
    rcases Nat.lt_or_ge k (k2 + 1) with hlt | hge
    · have hk2 : k ≤ k2 := Nat.lt_succ_iff.mp hlt
      have hcast : Fin.castLE hkk i = Fin.castSucc (Fin.castLE hk2 i) := by
        apply Fin.ext
        simp
      rw [hcast]
      simp only [lsAux, Fin.snoc_castSucc]
      exact ih hk2 (Nat.le_of_succ_le h2)
    · have hk : k = k2 + 1 := le_antisymm hkk hge
      subst hk
      have hcast : Fin.castLE hkk i = i := Fin.ext rfl
      rw [hcast]

theorem triSolveLow_eq (n : ℕ) (M : Matrix (Fin n) (Fin n) ℚ) (c : Fin n → ℚ)
    (i : Fin n) :
    triSolveLow n M c i = (c i - ∑ j : Fin i.1,
        M i ⟨j.1, lt_trans j.2 i.2⟩ * triSolveLow n M c ⟨j.1, lt_trans j.2 i.2⟩) /
      M i i := by
  obtain ⟨v, hv⟩ := i
  have h1 : (⟨v, hv⟩ : Fin n) = Fin.castLE hv (Fin.last v) := Fin.ext (by simp)
  have h2 : triSolveLow n M c ⟨v, hv⟩ = lsAux n M c (v + 1) hv (Fin.last v) := by
    rw [triSolveLow, h1, lsAux_castLE n M c (v + 1) n hv le_rfl (Fin.last v)]
  rw [h2]
  simp only [lsAux, Fin.snoc_last]
  congr 1
  congr 1
  refine Finset.sum_congr rfl fun j _ => ?_
  congr 1
  have h3 : (⟨j.1, lt_trans j.2 hv⟩ : Fin n) = Fin.castLE (Nat.le_of_succ_le hv) j :=
    Fin.ext rfl
  rw [triSolveLow, h3, lsAux_castLE n M c v n (Nat.le_of_succ_le hv) le_rfl j]

theorem triSolveLow_mulVec (n : ℕ) (M : Matrix (Fin n) (Fin n) ℚ) (c : Fin n → ℚ)
    (hlow : ∀ i j, i < j → M i j = 0) (hd : ∀ i, M i i ≠ 0) :
    M.mulVec (triSolveLow n M c) = c := by
  funext i
  obtain ⟨v, hv⟩ := i
  have hg : ∀ g : ℕ → ℚ, (∀ k : Fin n, M ⟨v, hv⟩ k * triSolveLow n M c k = g k.1) →
      M.mulVec (triSolveLow n M c) ⟨v, hv⟩ = ∑ k ∈ Finset.range n, g k := by
    intro g hgk
    simp only [Matrix.mulVec, Matrix.dotProduct]
    rw [← Fin.sum_univ_eq_sum_range g n]
    exact Finset.sum_congr rfl fun k _ => hgk k
  set y := triSolveLow n M c with hy
  set g : ℕ → ℚ := fun k => if hk : k < n then M ⟨v, hv⟩ ⟨k, hk⟩ * y ⟨k, hk⟩ else 0
    with hgdef
  have hmain : M.mulVec y ⟨v, hv⟩ = ∑ k ∈ Finset.range n, g k := by
    refine hg g fun k => ?_
    simp only [hgdef]
    rw [dif_pos k.2]
  have hsplit : ∑ k ∈ Finset.range n, g k =
      (∑ k ∈ Finset.range (v + 1), g k) + ∑ k ∈ Finset.Ico (v + 1) n, g k :=
    (Finset.sum_range_add_sum_Ico g hv).symm
  have hico : ∀ k ∈ Finset.Ico (v + 1) n, g k = 0 := by
    intro k hk
    obtain ⟨hk1, hk2⟩ := Finset.mem_Ico.mp hk
    simp only [hgdef]
    rw [dif_pos hk2, hlow ⟨v, hv⟩ ⟨k, hk2⟩ hk1, zero_mul]
  have hlast : ∑ k ∈ Finset.range (v + 1), g k = (∑ k ∈ Finset.range v, g k) + g v :=
    Finset.sum_range_succ g v
  have hdiag : g v = c ⟨v, hv⟩ - ∑ j : Fin v,
      M ⟨v, hv⟩ ⟨j.1, lt_trans j.2 hv⟩ * y ⟨j.1, lt_trans j.2 hv⟩ := by
    simp only [hgdef]
    rw [dif_pos hv, hy, triSolveLow_eq, mul_comm, div_mul_cancel₀ _ (hd ⟨v, hv⟩)]
  have hT : ∑ k ∈ Finset.range v, g k = ∑ j : Fin v,
      M ⟨v, hv⟩ ⟨j.1, lt_trans j.2 hv⟩ * y ⟨j.1, lt_trans j.2 hv⟩ := by
    rw [← Fin.sum_univ_eq_sum_range g v]
    refine Finset.sum_congr rfl fun j _ => ?_
    simp only [hgdef]
    rw [dif_pos (lt_trans j.2 hv)]
  rw [hmain, hsplit, Finset.sum_eq_zero hico, add_zero, hlast, hdiag, hT]
  ring

theorem backSub_mulVec (n : ℕ) (U : Matrix (Fin n) (Fin n) ℚ) (c : Fin n → ℚ)
    (hup : ∀ i j, j < i → U i j = 0) (hd : ∀ i, U i i ≠ 0) :
    U.mulVec (backSub n U c) = c := by
  set M : Matrix (Fin n) (Fin n) ℚ := Matrix.of fun r s2 => U r.rev s2.rev with hM
  have hlowM : ∀ r s2 : Fin n, r < s2 → M r s2 = 0 := by
    intro r s2 hrs
    rw [hM]
    exact hup r.rev s2.rev (Fin.rev_lt_rev.mpr hrs)
  have hdM : ∀ r : Fin n, M r r ≠ 0 := fun r => hd r.rev
  have hsol := triSolveLow_mulVec n M (fun r => c r.rev) hlowM hdM
  funext i
  have hi := congrFun hsol i.rev
  simp only [Matrix.mulVec, Matrix.dotProduct] at hi ⊢
  have hre : ∑ k : Fin n, U i k * backSub n U c k =
      ∑ s2 : Fin n, M i.rev s2 * triSolveLow n M (fun r => c r.rev) s2 := by
    refine Fintype.sum_equiv Fin.revPerm _ _ fun k => ?_
    simp only [backSub, hM, Fin.revPerm_apply, Matrix.of_apply, Fin.rev_rev]
  rw [hre, hi, Fin.rev_rev]

theorem LU_core_ok_det (n : ℕ) (A : Matrix (Fin n) (Fin n) ℚ)
    (σ : Equiv.Perm (Fin n)) (s : ℕ) (L U : Matrix (Fin n) (Fin n) ℚ)
    (h : LU_core n A = .ok (σ, s, L, U)) :
    A.det = (-1 : ℚ) ^ s * ∏ i, U i i ∧ A.det ≠ 0 := by
  obtain ⟨hLd, hLlow, hUup, hUnz, hm, hsgn⟩ := LU_core_ok n A σ s L U h
  have h1 : (A.submatrix σ id).det = L.det * U.det := by
    rw [hm, Matrix.det_mul]
  rw [Matrix.det_permute] at h1
  have hdL : L.det = 1 := by
    rw [Matrix.det_of_lowerTriangular L
      fun i j hij => hLlow i j (OrderDual.toDual_lt_toDual.mp hij)]
    exact Finset.prod_eq_one fun i _ => hLd i
  have hdU : U.det = ∏ i, U i i :=
    Matrix.det_of_upperTriangular fun i j hij => hUup i j hij
  have hcast : ((Equiv.Perm.sign σ : ℤ) : ℚ) = (-1 : ℚ) ^ s := by
    rw [hsgn]
    push_cast
    norm_num
  rw [hdL, hdU, one_mul, hcast] at h1
  have hdet : A.det = (-1 : ℚ) ^ s * ∏ i, U i i := by
    have h2 : ((-1 : ℚ) ^ s) * ((-1 : ℚ) ^ s * A.det) = (-1 : ℚ) ^ s * ∏ i, U i i := by
      rw [h1]
    rw [← mul_assoc, ← pow_add, Even.neg_one_pow ⟨s, rfl⟩, one_mul] at h2
    exact h2
  refine ⟨hdet, ?_⟩
  rw [hdet]
  exact mul_ne_zero (pow_ne_zero s (by norm_num))
    (Finset.prod_ne_zero_iff.mpr fun i _ => hUnz i)

theorem det_eq_det (mat : Mat) (h : mat.rows = mat.cols) :
    det mat = .ok ((mat.sq h).det) := by
  obtain ⟨r, c, d⟩ := mat
  have h2 : r = c := h
  subst h2
  have hsq : Mat.sq ⟨r, r, d⟩ h = d := by
    funext i j
    rw [Mat.sq, Matrix.submatrix_apply, id_eq]
    exact congrArg (d i) (Fin.ext rfl)
  rw [det]
  rw [dif_pos h]
  by_cases h1 : r = 1
  · subst h1
    rw [dif_pos rfl, hsq, Matrix.det_fin_one]
    exact congrArg Except.ok (congrArg₂ d (Subsingleton.elim _ _) (Subsingleton.elim _ _))
  · rw [dif_neg h1]
    rcases heq : LU_core r (Mat.sq ⟨r, r, d⟩ h) with e0 | ⟨σ, s, L, U⟩
    · obtain ⟨_, hdet⟩ := LU_core_err r _ e0 heq
      rw [hsq] at hdet
      rw [hsq, hdet]
    · obtain ⟨hdet, _⟩ := LU_core_ok_det r _ σ s L U heq
      rw [hsq] at hdet
      rw [hsq, hdet]

theorem solve_ok (A b : Mat) (h1 : A.rows = A.cols) (h2 : b.rows = A.rows)
    (hdet : (A.sq h1).det ≠ 0) :
    ∃ X : Matrix (Fin A.rows) (Fin b.cols) ℚ,
      solve A b = .ok ⟨A.rows, b.cols, X⟩ ∧
      A.sq h1 * X = b.data.submatrix (Fin.cast h2.symm) id := by
  rcases heq : LU_core A.rows (A.sq h1) with e0 | ⟨σ, s, L, U⟩
  · exact absurd (LU_core_err _ _ _ heq).2 hdet
  obtain ⟨hLd, hLlow, hUup, hUnz, hm, _⟩ := LU_core_ok _ _ _ _ _ _ heq
  have hLnz : ∀ i, L i i ≠ 0 := fun i => by
    rw [hLd i]
    exact one_ne_zero
  refine ⟨Matrix.of fun i j => backSub A.rows U (forwardSub A.rows L
      fun i3 => b.data (Fin.cast h2.symm (σ i3)) j) i, ?_, ?_⟩
  · rw [solve]
    rw [dif_pos (And.intro h1 h2)]
    rw [heq]
  · ext i0 j
    set cvec : Fin A.rows → ℚ :=
      fun i3 => b.data (Fin.cast h2.symm (σ i3)) j with hcvec
    set y := forwardSub A.rows L cvec with hy
    set x := backSub A.rows U y with hx
    have hLy : L.mulVec y = cvec := triSolveLow_mulVec A.rows L cvec hLlow hLnz
    have hUx : U.mulVec x = y := backSub_mulVec A.rows U y hUup hUnz
    have hLUx : (L * U).mulVec x = cvec := by
      rw [← Matrix.mulVec_mulVec, hUx, hLy]
    have hperm : ((A.sq h1).submatrix σ id).mulVec x = cvec := by
      rw [hm, hLUx]
    have hpoint : ((A.sq h1).mulVec x) i0 = b.data (Fin.cast h2.symm i0) j := by
      have hp1 := congrFun hperm (σ.symm i0)
      simp only [Matrix.mulVec, Matrix.dotProduct, Matrix.submatrix_apply, id_eq,
        Equiv.apply_symm_apply, hcvec] at hp1
      simpa [Matrix.mulVec, Matrix.dotProduct] using hp1
    have hmulapp : (A.sq h1 * Matrix.of fun i j2 =>
        backSub A.rows U (forwardSub A.rows L
          fun i3 => b.data (Fin.cast h2.symm (σ i3)) j2) i) i0 j =
        ((A.sq h1).mulVec x) i0 := by
      rw [Matrix.mul_apply]
      simp only [Matrix.mulVec, Matrix.dotProduct, Matrix.of_apply]
    rw [hmulapp, hpoint, Matrix.submatrix_apply, id_eq]

theorem solve_dim (A b : Mat) (h : ¬(A.rows = A.cols ∧ b.rows = A.rows)) :
    solve A b = .error .DimensionMismatchError := by
  rw [solve, dif_neg h]

theorem solve_sing (A b : Mat) (h1 : A.rows = A.cols) (h2 : b.rows = A.rows)
    (hdet : (A.sq h1).det = 0) :
    solve A b = .error .SingularMatrixError := by
  rcases heq : LU_core A.rows (A.sq h1) with e0 | ⟨σ, s, L, U⟩
  · obtain ⟨he, _⟩ := LU_core_err _ _ _ heq
    rw [solve, dif_pos (And.intro h1 h2), heq, he]
  · exact absurd hdet (LU_core_ok_det _ _ _ _ _ _ heq).2

theorem sq_mk (r : ℕ) (d : Matrix (Fin r) (Fin r) ℚ)
    (h : (Mat.mk r r d).rows = (Mat.mk r r d).cols) : Mat.sq ⟨r, r, d⟩ h = d := by
  funext i j
  rw [Mat.sq, Matrix.submatrix_apply, id_eq]
  exact congrArg (d i) (Fin.ext rfl)

theorem submatrix_cast_id (r k : ℕ) (bd : Matrix (Fin r) (Fin k) ℚ) (h : r = r) :
    bd.submatrix (Fin.cast h) id = bd := by
  funext i j
  rw [Matrix.submatrix_apply, id_eq]
  exact congrArg (fun z => bd z j) (Fin.ext rfl)

theorem dotp_map (n : ℕ) (f g : Fin n → ℚ) :
    dotp ((List.finRange n).map f) ((List.finRange n).map g) =
      ∑ k : Fin n, f k * g k := by
  rw [dotp, List.zipWith_map, List.zipWith_same, Fin.sum_univ_def]

theorem multiply_ok (a b : Mat) (hc : a.cols = b.cols) :
    multiply a b = .ok ⟨a.rows, b.cols,
      Matrix.of fun i j => dotp (a.rowList i) (b.colList j)⟩ := by
  rw [multiply, if_pos hc]

theorem multiply_err (a b : Mat) (hc : a.cols ≠ b.cols) :
    multiply a b = .error .DimensionMismatchError := by
  rw [multiply, if_neg hc]

theorem dotp_row_col (a b : Mat) (hr : a.cols = b.rows) (i : Fin a.rows)
    (j : Fin b.cols) :
    dotp (a.rowList i) (b.colList j) =
      ∑ k : Fin b.rows, a.data i (Fin.cast hr.symm k) * b.data k j := by
  obtain ⟨ar, ac, ad⟩ := a
  obtain ⟨br, bc, bd⟩ := b
  have hr2 : ac = br := hr
  subst hr2
  rw [Mat.rowList, Mat.colList, dotp_map]
  refine Finset.sum_congr rfl fun k _ => ?_
  congr 1

theorem inverse_ok (A : Mat) (h1 : A.rows = A.cols) (hdet : (A.sq h1).det ≠ 0) :
    ∃ X : Matrix (Fin A.rows) (Fin A.rows) ℚ,
      inverse A = .ok ⟨A.rows, A.rows, X⟩ ∧ A.sq h1 * X = 1 := by
  obtain ⟨X, hs, hprod⟩ := solve_ok A (identity A.rows) h1 rfl hdet
  refine ⟨X, ?_, ?_⟩
  · rw [inverse]
    exact hs
  · rw [hprod]
    funext i j
    rw [Matrix.submatrix_apply, id_eq]
    have hci : Fin.cast (Eq.symm (rfl : (identity A.rows).rows = A.rows)) i = i :=
      Fin.ext rfl
    rw [hci]
    rfl

theorem inverse_dim (A : Mat) (h : A.rows ≠ A.cols) :
    inverse A = .error .DimensionMismatchError := by
  rw [inverse]
  exact solve_dim A (identity A.rows) fun hc => h hc.1

theorem inverse_sing (A : Mat) (h1 : A.rows = A.cols) (hdet : (A.sq h1).det = 0) :
    inverse A = .error .SingularMatrixError := by
  rw [inverse]
  exact solve_sing A (identity A.rows) h1 rfl hdet

theorem LU_decompose_dim (mat : Mat) (h : mat.rows ≠ mat.cols) :
    LU_decompose mat = .error .DimensionMismatchError := by
  rw [LU_decompose, dif_neg h]

theorem multiply_square (r : ℕ) (P Q : Matrix (Fin r) (Fin r) ℚ) :
    multiply ⟨r, r, P⟩ ⟨r, r, Q⟩ = .ok ⟨r, r, P * Q⟩ := by
  rw [multiply_ok ⟨r, r, P⟩ ⟨r, r, Q⟩ rfl]
  refine congrArg (fun D => Except.ok (Mat.mk r r D)) ?_
  funext i j
  rw [Matrix.of_apply, dotp_row_col ⟨r, r, P⟩ ⟨r, r, Q⟩ rfl i j, Matrix.mul_apply]
  refine Finset.sum_congr rfl fun k2 _ => ?_
  congr 1

/-- C1: `multiply(a, b)` fails with `DimensionMismatchError` exactly when
`a.cols ≠ b.cols` (the documented contract), and on success returns a new
`a.rows × b.cols` matrix whose cells are the dot products of the rows of `a`
with the columns of `b`. -/
theorem claim_C1 (a b : Mat) :
    (multiply a b = .error .DimensionMismatchError ↔ a.cols ≠ b.cols) ∧
    (a.cols = b.cols → multiply a b = .ok ⟨a.rows, b.cols,
      Matrix.of fun i j => dotp (a.rowList i) (b.colList j)⟩) := by
  refine ⟨⟨?_, multiply_err a b⟩, multiply_ok a b⟩
  intro h hc
  rw [multiply_ok a b hc] at h
  exact Except.noConfusion h

theorem claim_C1_witness :
    multiply m22 sing22 = .ok ⟨2, 2,
      Matrix.of fun i j => dotp (m22.rowList i) (sing22.colList j)⟩ ∧
    multiply m22 b21 = .error .DimensionMismatchError :=
  ⟨(claim_C1 m22 sing22).2 rfl, (claim_C1 m22 b21).1.mpr (by decide)⟩

/-- C10: `map(mat, f)` replaces every element `x` by `f x`, leaving the row
and column counts unchanged (the C function mutates in place and returns
nothing; the model returns the updated matrix). -/
theorem claim_C10 (mat : Mat) (f : ℚ → ℚ) :
    (map mat f).rows = mat.rows ∧ (map mat f).cols = mat.cols ∧
    ∀ (i : Fin mat.rows) (j : Fin mat.cols), (map mat f).data i j = f (mat.data i j) :=
  ⟨rfl, rfl, fun _ _ => rfl⟩

/-- C8: `get_lower` and `get_upper` keep the input dimensions and contain,
respectively, the entries on/below and on/above the main diagonal bounded by
`min rows cols`, all other positions (including those outside the square
block) being zero. -/
theorem claim_C8 (mat : Mat) :
    (get_lower mat).rows = mat.rows ∧ (get_lower mat).cols = mat.cols ∧
    (get_upper mat).rows = mat.rows ∧ (get_upper mat).cols = mat.cols ∧
    (∀ (i : Fin mat.rows) (j : Fin mat.cols),
      (get_lower mat).data i j =
        if j.1 ≤ i.1 ∧ i.1 < min mat.rows mat.cols ∧ j.1 < min mat.rows mat.cols
        then mat.data i j else 0) ∧
    (∀ (i : Fin mat.rows) (j : Fin mat.cols),
      (get_upper mat).data i j =
        if i.1 ≤ j.1 ∧ i.1 < min mat.rows mat.cols ∧ j.1 < min mat.rows mat.cols
        then mat.data i j else 0) := by
  refine ⟨rfl, rfl, rfl, rfl, ?_, ?_⟩
  · intro i j
    show (if j.1 ≤ i.1 ∧ i.1 < min mat.rows mat.cols then mat.data i j else 0) = _
    refine if_congr ?_ rfl rfl
    omega
  · intro i j
    show (if i.1 ≤ j.1 ∧ j.1 < min mat.rows mat.cols then mat.data i j else 0) = _
    refine if_congr ?_ rfl rfl
    omega

/-- C9: `get_submatrix(mat, row, col, nrows, ncols)` fails with `RangeError`
exactly when the window exceeds the bounds or a start index is negative, and
otherwise returns a new `nrows × ncols` matrix copying the window. -/
theorem claim_C9 (mat : Mat) (row col : ℤ) (nrows ncols : ℕ) :
    (get_submatrix mat row col nrows ncols = .error .RangeError ↔
      (row + nrows > (mat.rows : ℤ) ∨ col + ncols > (mat.cols : ℤ) ∨
        row < 0 ∨ col < 0)) ∧
    (∀ hok : ¬(row + nrows > (mat.rows : ℤ) ∨ col + ncols > (mat.cols : ℤ) ∨
        row < 0 ∨ col < 0),
      get_submatrix mat row col nrows ncols = .ok ⟨nrows, ncols,
        Matrix.of fun i j =>
          mat.data ⟨row.toNat + i.1, by push_neg at hok; omega⟩
                   ⟨col.toNat + j.1, by push_neg at hok; omega⟩⟩) := by
  constructor
  · constructor
    · intro h
      by_contra hok
      rw [get_submatrix, dif_neg hok] at h
      exact Except.noConfusion h
    · intro hc
      rw [get_submatrix, dif_pos hc]
  · intro hok
    rw [get_submatrix, dif_neg hok]

theorem claim_C9_witness :
    get_submatrix mat23 0 1 2 2 = .ok ⟨2, 2,
      Matrix.of fun i j => (![![1, 2], ![11, 12]] : Fin 2 → Fin 2 → ℚ) i j⟩ ∧
    get_submatrix mat23 0 1 2 3 = .error .RangeError ∧
    get_submatrix mat23 (-1) 0 1 1 = .error .RangeError := by
  refine ⟨?_, (claim_C9 mat23 0 1 2 3).1.mpr (by decide),
    (claim_C9 mat23 (-1) 0 1 1).1.mpr (by decide)⟩
  rw [(claim_C9 mat23 0 1 2 2).2 (by decide)]
  with_unfolding_all decide

/-- C2 (amended): `LU_decompose` fails with `DimensionMismatchError` on every
non-square input; on a square input on which it succeeds, the returned `L` is
unit lower triangular, `U` is upper triangular, and `multiply(L, U)` equals
the input with the internally tracked pivot permutation applied to its rows
(exactly, over exact arithmetic); a square input whose determinant is zero is
rejected with `SingularMatrixError` rather than decomposed. -/
theorem claim_C2 (mat : Mat) :
    (mat.rows ≠ mat.cols → LU_decompose mat = .error .DimensionMismatchError) ∧
    (∀ (h : mat.rows = mat.cols) (L U : Matrix (Fin mat.rows) (Fin mat.rows) ℚ),
      LU_decompose mat = .ok (⟨mat.rows, mat.rows, L⟩, ⟨mat.rows, mat.rows, U⟩) →
      (∀ i, L i i = 1) ∧ (∀ i j, i < j → L i j = 0) ∧
      (∀ i j, j < i → U i j = 0) ∧
      ∃ σ : Equiv.Perm (Fin mat.rows),
        multiply ⟨mat.rows, mat.rows, L⟩ ⟨mat.rows, mat.rows, U⟩ =
          .ok ⟨mat.rows, mat.rows, (mat.sq h).submatrix σ id⟩) ∧
    (∀ h : mat.rows = mat.cols, (mat.sq h).det = 0 →
      LU_decompose mat = .error .SingularMatrixError) := by
  refine ⟨LU_decompose_dim mat, ?_, ?_⟩
  · intro h L U hLU
    rw [LU_decompose, dif_pos h] at hLU
    rcases heq : LU_core mat.rows (mat.sq h) with e0 | ⟨σ, s, L0, U0⟩
    · rw [heq] at hLU
      exact absurd hLU (by simp)
    · rw [heq] at hLU
      simp only [Except.ok.injEq, Prod.mk.injEq, Mat.mk.injEq, heq_eq_eq,
        true_and] at hLU
      obtain ⟨hL0, hU0⟩ := hLU
      subst hL0
      subst hU0
      obtain ⟨hd, hl, hu, _, hm, _⟩ := LU_core_ok _ _ _ _ _ _ heq
      refine ⟨hd, hl, hu, σ, ?_⟩
      rw [multiply_square, ← hm]
  · intro h hdet
    rcases heq : LU_core mat.rows (mat.sq h) with e0 | ⟨σ, s, L0, U0⟩
    · obtain ⟨he, _⟩ := LU_core_err _ _ _ heq
      rw [LU_decompose, dif_pos h, heq, he]
    · exact absurd hdet (LU_core_ok_det _ _ _ _ _ _ heq).2

theorem claim_C2_counterexample :
    sing22.rows = sing22.cols ∧
    LU_decompose sing22 = .error .SingularMatrixError := by
  constructor
  · rfl
  · with_unfolding_all decide

theorem claim_C2_witness :
    LU_decompose mat23 = .error .DimensionMismatchError ∧
    ((∀ i, L22 i i = 1) ∧ (∀ i j, i < j → L22 i j = 0) ∧
      (∀ i j, j < i → U22 i j = 0) ∧
      ∃ σ : Equiv.Perm (Fin 2),
        multiply ⟨2, 2, L22⟩ ⟨2, 2, U22⟩ =
          .ok ⟨2, 2, (m22.sq rfl).submatrix σ id⟩) :=
  ⟨(claim_C2 mat23).1 (by decide),
   (claim_C2 m22).2.1 rfl L22 U22 (by with_unfolding_all decide)⟩

/-- C3: whenever the decomposition detects a singular matrix, `det` returns
`0.0` instead of an error; in particular `det [[1,2],[2,4]]` is `0.0`, while
`solve` and `inverse` on the same matrix fail with `SingularMatrixError`. -/
theorem claim_C3 :
    (∀ mat : Mat, LU_decompose mat = .error .SingularMatrixError →
      det mat = .ok 0) ∧
    det sing22 = .ok 0 ∧
    solve sing22 b21 = .error .SingularMatrixError ∧
    inverse sing22 = .error .SingularMatrixError := by
  refine ⟨?_, by with_unfolding_all decide, by with_unfolding_all decide,
    by with_unfolding_all decide⟩
  intro mat h
  by_cases hsq : mat.rows = mat.cols
  · rw [det_eq_det mat hsq]
    rw [LU_decompose, dif_pos hsq] at h
    rcases heq : LU_core mat.rows (mat.sq hsq) with e0 | ⟨σ, s, L, U⟩
    · obtain ⟨_, hdet⟩ := LU_core_err _ _ _ heq
      rw [hdet]
    · rw [heq] at h
      exact absurd h (by simp)
  · rw [LU_decompose_dim mat hsq] at h
    exact absurd h (by simp)

theorem claim_C3_witness :
    det ⟨1, 1, (0 : Matrix (Fin 1) (Fin 1) ℚ)⟩ = .ok 0 :=
  claim_C3.1 ⟨1, 1, 0⟩ (by with_unfolding_all decide)

/-- C4 (amended): for square `A` and a right-hand side with matching row
count, if `A` is invertible (nonzero determinant) then `solve(A, b)` returns
an `A.rows × b.cols` matrix `X` with `A × X = b` as the mathematical matrix
product (exactly, over exact arithmetic); `solve` fails with
`SingularMatrixError` when `A` is singular and with `DimensionMismatchError`
on a shape mismatch.  The library `multiply(A, solve(A, b))`, as documented
(`a.cols == b.cols`), instead rejects the pair for `n×1` right-hand sides
with `n ≠ 1`. -/
theorem claim_C4 (A b : Mat) :
    (∀ (h1 : A.rows = A.cols) (h2 : b.rows = A.rows), (A.sq h1).det ≠ 0 →
      ∃ X : Matrix (Fin A.rows) (Fin b.cols) ℚ,
        solve A b = .ok ⟨A.rows, b.cols, X⟩ ∧
        A.sq h1 * X = b.data.submatrix (Fin.cast h2.symm) id) ∧
    (∀ h1 : A.rows = A.cols, b.rows = A.rows → (A.sq h1).det = 0 →
      solve A b = .error .SingularMatrixError) ∧
    (¬(A.rows = A.cols ∧ b.rows = A.rows) →
      solve A b = .error .DimensionMismatchError) :=
  ⟨fun h1 h2 hdet => solve_ok A b h1 h2 hdet,
   fun h1 h2 hdet => solve_sing A b h1 h2 hdet,
   solve_dim A b⟩

theorem claim_C4_counterexample :
    solve m22 b21 = .ok x21 ∧
    multiply m22 x21 = .error .DimensionMismatchError := by
  constructor
  · with_unfolding_all decide
  · with_unfolding_all decide

theorem claim_C4_witness :
    (∃ X : Matrix (Fin m22.rows) (Fin b21.cols) ℚ,
      solve m22 b21 = .ok ⟨m22.rows, b21.cols, X⟩ ∧
      m22.sq rfl * X = b21.data.submatrix (Fin.cast rfl) id) ∧
    solve sing22 b21 = .error .SingularMatrixError ∧
    solve m22 ⟨3, 1, 0⟩ = .error .DimensionMismatchError :=
  ⟨(claim_C4 m22 b21).1 rfl rfl
      (by rw [Matrix.det_fin_two]; with_unfolding_all decide),
   (claim_C4 sing22 b21).2.1 rfl rfl
      (by rw [Matrix.det_fin_two]; with_unfolding_all decide),
   (claim_C4 m22 ⟨3, 1, 0⟩).2.2 (by decide)⟩

/-- C5: for every square `A` with nonzero determinant, `inverse(A)` succeeds
and `multiply(A, inverse(A))` and `multiply(inverse(A), A)` are both exactly
`identity(n)`; `inverse` fails with `DimensionMismatchError` on non-square
input and with `SingularMatrixError` on singular input. -/
theorem claim_C5 (A : Mat) :
    (∀ h1 : A.rows = A.cols, (A.sq h1).det ≠ 0 →
      ∃ X : Mat, inverse A = .ok X ∧
        multiply A X = .ok (identity A.rows) ∧
        multiply X A = .ok (identity A.rows)) ∧
    (A.rows ≠ A.cols → inverse A = .error .DimensionMismatchError) ∧
    (∀ h1 : A.rows = A.cols, (A.sq h1).det = 0 →
      inverse A = .error .SingularMatrixError) := by
  obtain ⟨r, c, dA⟩ := A
  refine ⟨?_, inverse_dim _, fun h1 hdet => inverse_sing _ h1 hdet⟩
  intro h1 hdet
  have h2 : r = c := h1
  subst h2
  obtain ⟨X, hinv, hAX⟩ := inverse_ok ⟨r, r, dA⟩ h1 hdet
  rw [sq_mk r dA h1] at hAX
  have hXA : X * dA = 1 := Matrix.mul_eq_one_comm.mp hAX
  refine ⟨⟨r, r, X⟩, hinv, ?_, ?_⟩
  · rw [multiply_square, hAX]
    rfl
  · rw [multiply_square, hXA]
    rfl

theorem claim_C5_witness :
    (∃ X : Mat, inverse m22 = .ok X ∧
      multiply m22 X = .ok (identity 2) ∧
      multiply X m22 = .ok (identity 2)) ∧
    inverse mat23 = .error .DimensionMismatchError ∧
    inverse sing22 = .error .SingularMatrixError :=
  ⟨(claim_C5 m22).1 rfl (by rw [Matrix.det_fin_two]; with_unfolding_all decide),
   (claim_C5 mat23).2.1 (by decide),
   (claim_C5 sing22).2.2 rfl
     (by rw [Matrix.det_fin_two]; with_unfolding_all decide)⟩

/-- C7: `det(identity(n))` is `1.0` for every `n ≥ 1`; `det` of any square
matrix with a zero row or a zero column is `0.0`; and `det` of a `1×1` matrix
is its sole element (returned directly, without the decomposition). -/
theorem claim_C7 :
    (∀ n : ℕ, 1 ≤ n → det (identity n) = .ok 1) ∧
    (∀ (mat : Mat) (h : mat.rows = mat.cols),
      ((∃ i, ∀ j, mat.data i j = 0) ∨ (∃ j, ∀ i, mat.data i j = 0)) →
      det mat = .ok 0) ∧
    (∀ d : Matrix (Fin 1) (Fin 1) ℚ, det ⟨1, 1, d⟩ = .ok (d 0 0)) := by
  refine ⟨?_, ?_, ?_⟩
  · intro n _
    show det ⟨n, n, (1 : Matrix (Fin n) (Fin n) ℚ)⟩ = .ok 1
    rw [det_eq_det ⟨n, n, 1⟩ rfl, sq_mk n 1 rfl, Matrix.det_one]
  · intro mat h hz
    rw [det_eq_det mat h]
    rcases hz with ⟨i, hrow⟩ | ⟨j, hcol⟩
    · rw [Matrix.det_eq_zero_of_row_eq_zero i fun j => hrow (Fin.cast h j)]
    · rw [Matrix.det_eq_zero_of_column_eq_zero (Fin.cast h.symm j) fun i => ?_]
      rw [Mat.sq, Matrix.submatrix_apply, id_eq]
      rw [show Fin.cast h (Fin.cast h.symm j) = j from Fin.ext rfl]
      exact hcol i
  · intro d
    rw [det_eq_det ⟨1, 1, d⟩ rfl, sq_mk 1 d rfl, Matrix.det_fin_one]

theorem claim_C7_witness :
    det (identity 3) = .ok 1 ∧
    det ⟨2, 2, Matrix.of fun i j =>
      (![![0, 0], ![1, 2]] : Fin 2 → Fin 2 → ℚ) i j⟩ = .ok 0 ∧
    det ⟨1, 1, Matrix.of fun _ _ => (5 : ℚ)⟩ = .ok 5 :=
  ⟨claim_C7.1 3 (by decide),
   claim_C7.2.1 _ rfl (Or.inl ⟨0, by decide⟩),
   claim_C7.2.2 _⟩

end LML
